import Mathlib

set_option maxRecDepth 8192

/-!
Verification of the quiz-text parser of the quizbot repository.

The repository contains two near-duplicate implementations of the parser:
`format_quiz` in `src/app.py` and `format_quiz` in `src/quiz_deep.py`.
Both take the raw text reply of a generation backend and turn it into a
list of question records.  We embed both functions faithfully over
`List Char` (Python strings are modelled as lists of characters):

* `formatQuizApp`  embeds `format_quiz` of `src/app.py` (lines 62-84);
* `formatQuizDeep` embeds `format_quiz` of `src/quiz_deep.py` (lines 88-110).

Python primitives are modelled exactly:
`str.split(sep)` (`splitNl`, `splitNlNl`), `str.strip()` (`pyStrip`),
`str.replace(old, "")` (`removeAll`, left-to-right non-overlapping removal
of every occurrence), and the anchored regex substitution
`re.sub(r"^(Question\s*\d+:?)\s*", "", line)` (`stripQuestionLabel`).
-/

namespace QuizBot

/-- The whitespace test used by Python's `str.strip()` and by `\s` of the
`re` module on the ASCII range: space, tab, newline, carriage return,
vertical tab and form feed. -/
def isSpaceC (c : Char) : Bool :=
  c = ' ' || c = '\t' || c = '\n' || c = '\r' || c = Char.ofNat 11 || c = Char.ofNat 12

/-- Python `s.strip()`: drop whitespace from both ends. -/
def pyStrip (s : List Char) : List Char :=
  ((s.dropWhile isSpaceC).reverse.dropWhile isSpaceC).reverse

/-- `isPre p s` is true when `p` is a prefix of `s` (Python `s.startswith(p)`). -/
def isPre : List Char → List Char → Bool
  | [], _ => true
  | _ :: _, [] => false
  | a :: as, b :: bs => a = b && isPre as bs

/-- `containsL pat s` is true when `pat` occurs as a contiguous substring of
`s` (Python `pat in s`). -/
def containsL (pat : List Char) : List Char → Bool
  | [] => isPre pat []
  | c :: rest => isPre pat (c :: rest) || containsL pat rest

/-- Fuel-indexed worker for `removeAll`; the fuel is an upper bound on the
length of the string and makes the recursion structural. -/
def removeAllF : Nat → List Char → List Char → List Char
  | 0, _, s => s
  | _ + 1, _, [] => []
  | n + 1, old, c :: rest =>
    if isPre old (c :: rest) then removeAllF n old (List.drop (old.length - 1) rest)
    else c :: removeAllF n old rest

/-- Python `s.replace(old, "")` for a non-empty `old`: remove every
occurrence of `old` from `s`, scanning left to right without overlap. -/
def removeAll (old s : List Char) : List Char :=
  removeAllF s.length old s

/-- Python `s.split("\n")`: every newline separates; the result is never
empty and `"".split("\n") == [""]`. -/
def splitNl : List Char → List (List Char)
  | [] => [[]]
  | c :: rest =>
    if c = '\n' then [] :: splitNl rest
    else
      match splitNl rest with
      | [] => [[c]]
      | p :: ps => (c :: p) :: ps

/-- Python `s.split("\n\n")`: each non-overlapping occurrence of two
consecutive newlines separates, scanning left to right. -/
def splitNlNl : List Char → List (List Char)
  | [] => [[]]
  | [c] => [[c]]
  | c :: d :: rest =>
    if c = '\n' ∧ d = '\n' then [] :: splitNlNl rest
    else
      match splitNlNl (d :: rest) with
      | [] => [[c]]
      | p :: ps => (c :: p) :: ps

/-- Whether a string contains two consecutive newlines (an occurrence of the
block separator `"\n\n"`). -/
def hasNlNl : List Char → Bool
  | [] => false
  | [_] => false
  | c :: d :: rest => (c = '\n' && d = '\n') || hasNlNl (d :: rest)

/-- `lastLine x ys` is the last element of the non-empty list `x :: ys`,
modelling Python's `lines[-1]`. -/
def lastLine : List Char → List (List Char) → List Char
  | x, [] => x
  | _, y :: ys => lastLine y ys

/-- The padding loop `while len(options) < 4: options.append("")` of both
implementations: append empty strings until at least four entries exist;
never truncate. -/
def padTo4 (l : List (List Char)) : List (List Char) :=
  l ++ List.replicate (4 - l.length) []

/-- The bullet marker removed (everywhere) by `app.py`'s
`lines[0].replace("- ", "")`. -/
def dashSp : List Char := ['-', ' ']

/-- The answer label removed (everywhere) by
`lines[-1].replace("Correct Answer: ", "")` in both implementations. -/
def ansLabel : List Char := "Correct Answer: ".toList

/-- The literal word matched by the regex `^(Question\s*\d+:?)\s*` of
`quiz_deep.py`. -/
def qWord : List Char := "Question".toList

/-- One parsed quiz question, the dict
`{"question": ..., "options": ..., "correct_answer": ...}` built by both
implementations (the spec calls the first field `prompt_text`). -/
structure QuestionRecord where
  question : List Char
  options : List (List Char)
  correct_answer : List Char
deriving DecidableEq, Repr

/-- `re.sub(r"^(Question\s*\d+:?)\s*", "", s)` from `src/quiz_deep.py`
line 97: anchored at the start of the string, so at most one substitution
happens; the match is the literal word `Question`, then any whitespace,
then one or more digits, then an optional colon, then any whitespace.
If the pattern does not match, the string is returned unchanged. -/
def stripQuestionLabel (s : List Char) : List Char :=
  if isPre qWord s then
    let r1 := (s.drop 8).dropWhile isSpaceC
    if (r1.takeWhile Char.isDigit) = [] then s
    else
      let r2 := r1.dropWhile Char.isDigit
      let r3 := if r2.head? = some ':' then r2.tail else r2
      r3.dropWhile isSpaceC
  else s

/-- The record-building part shared by `format_quiz` of `src/app.py`
(lines 68-83) operating on the lines of one block: blocks of fewer than
three lines are skipped (`if len(lines) < 3: continue`); otherwise the
first line with every `"- "` removed is the question (not trimmed), the
lines strictly between the first and the last, padded to four and each
trimmed, are the options, and the last line with every
`"Correct Answer: "` removed and trimmed is the correct answer. -/
def parseLinesApp : List (List Char) → Option QuestionRecord
  | l0 :: l1 :: l2 :: rest =>
    some { question := removeAll dashSp l0
           options := (padTo4 ((l1 :: l2 :: rest).dropLast)).map pyStrip
           correct_answer := pyStrip (removeAll ansLabel (lastLine l2 rest)) }
  | _ => none

/-- One iteration of the block loop of `format_quiz` in `src/app.py`:
blocks that are empty after stripping are skipped before the line split
(`if question.strip() == "": continue`). -/
def parseBlockApp (b : List Char) : Option QuestionRecord :=
  if pyStrip b = [] then none else parseLinesApp (splitNl b)

/-- `format_quiz` of `src/app.py` (lines 62-84): split the raw text on
`"\n\n"` and process each block in order. -/
def formatQuizApp (t : List Char) : List QuestionRecord :=
  (splitNlNl t).filterMap parseBlockApp

/-- The record-building part of `format_quiz` of `src/quiz_deep.py`
(lines 93-108): as `parseLinesApp`, except that the question is the first
line with a leading `Question <digits>[:]` label stripped by regex and
then trimmed. -/
def parseLinesDeep : List (List Char) → Option QuestionRecord
  | l0 :: l1 :: l2 :: rest =>
    some { question := pyStrip (stripQuestionLabel l0)
           options := (padTo4 ((l1 :: l2 :: rest).dropLast)).map pyStrip
           correct_answer := pyStrip (removeAll ansLabel (lastLine l2 rest)) }
  | _ => none

/-- One iteration of the block loop of `format_quiz` in `src/quiz_deep.py`:
no empty-block skip, only the line-count check inside `parseLinesDeep`. -/
def parseBlockDeep (b : List Char) : Option QuestionRecord :=
  parseLinesDeep (splitNl b)

/-- `format_quiz` of `src/quiz_deep.py` (lines 88-110): strip the whole
input, split on `"\n\n"` and process each block in order. -/
def formatQuizDeep (t : List Char) : List QuestionRecord :=
  (splitNlNl (pyStrip t)).filterMap parseBlockDeep

/-- The lines strictly between the first and the last line of a block,
Python's `lines[1:-1]`. -/
def middleOf (l : List (List Char)) : List (List Char) :=
  (l.drop 1).dropLast

/-- Join a list of blocks with the blank-line separator `"\n\n"`, the
inverse of the block split for well-behaved blocks. -/
def joinBlocks : List (List Char) → List Char
  | [] => []
  | [b] => b
  | b :: c :: rest => b ++ '\n' :: '\n' :: joinBlocks (c :: rest)

/-- The end-to-end scenario input of the spec (section 8). -/
def c1Input : List Char :=
  ("1: What color is the sky?\na) Red\nb) Blue\nc) Green\nd) Yellow\nCorrect Answer: b) Blue\n\n2: What is the capital of France?\na) Berlin\nb) Madrid\nc) Paris\nd) Rome\nCorrect Answer: c) Paris").toList

/-- A block whose stem carries a bare numeric enumeration marker. -/
def c2Block3 : List Char :=
  "3: What is 2+2?\na) 3\nb) 4\nc) 5\nd) 6\nCorrect Answer: b) 4".toList

/-- A block whose stem carries a `Question 3:` enumeration marker. -/
def c2BlockQ : List Char :=
  "Question 3: What is 2+2?\na) 3\nb) 4\nc) 5\nd) 6\nCorrect Answer: b) 4".toList

/-- A block whose stem carries a leading `- ` bullet marker. -/
def c2BlockDash : List Char :=
  "- What is 2+2?\na) 3\nb) 4\nc) 5\nd) 6\nCorrect Answer: b) 4".toList

/-- A block whose answer line contains the answer label in its interior. -/
def c3Block : List Char := "Q\na) x\nThe Correct Answer: is b".toList

/-- An input whose second block starts with an empty line, so that the
block has three lines but only two non-empty ones. -/
def c4Input : List Char := "A\n\n\nB\nC".toList

/-- A block whose answer line is the bare label without trailing space. -/
def c7Input : List Char := "Q\na) x\nCorrect Answer:".toList

/-- An input with no bullet or enumeration markers whose second block's
stem carries a leading space. -/
def c9Input : List Char := "X\n\n Q\no1\nA".toList

/-- Two identical well-formed blocks, to exercise order preservation and
the absence of deduplication. -/
def c8Blocks : List (List Char) :=
  ["Q\na) 1\nCorrect Answer: a) 1".toList, "Q\na) 1\nCorrect Answer: a) 1".toList]

/-! ### Lemmas about the string primitives -/

theorem isPre_append_self (l v : List Char) : isPre l (l ++ v) = true := by
  induction l with
  | nil => rfl
  | cons a as ih => simp [isPre, ih]

theorem removeAllF_fuel (old : List Char) :
    ∀ (m n : Nat) (s : List Char), s.length ≤ m → s.length ≤ n →
      removeAllF m old s = removeAllF n old s := by
  intro m
  induction m with
  | zero =>
    intro n s hm _
    have : s = [] := List.eq_nil_of_length_eq_zero (Nat.le_zero.mp hm)
    subst this
    cases n <;> rfl
  | succ m ih =>
    intro n s hm hn
    cases s with
    | nil => cases n <;> rfl
    | cons c rest =>
      cases n with
      | zero => simp at hn
      | succ n =>
        simp only [removeAllF]
        by_cases hp : isPre old (c :: rest) = true
        · rw [if_pos hp, if_pos hp]
          apply ih
          · have := List.length_drop (old.length - 1) rest
            simp only [List.length_cons] at hm
            omega
          · have := List.length_drop (old.length - 1) rest
            simp only [List.length_cons] at hn
            omega
        · rw [if_neg hp, if_neg hp]
          have ihr := ih n rest (by simp only [List.length_cons] at hm; omega)
            (by simp only [List.length_cons] at hn; omega)
          rw [ihr]

theorem removeAll_nil (old : List Char) : removeAll old [] = [] := rfl

/-- The step equation of `removeAll`, hiding the fuel. -/
theorem removeAll_cons (old : List Char) (c : Char) (rest : List Char) :
    removeAll old (c :: rest) =
      if isPre old (c :: rest) then removeAll old (List.drop (old.length - 1) rest)
      else c :: removeAll old rest := by
  unfold removeAll
  simp only [List.length_cons, removeAllF]
  by_cases hp : isPre old (c :: rest) = true
  · rw [if_pos hp, if_pos hp]
    apply removeAllF_fuel
    · have := List.length_drop (old.length - 1) rest
      omega
    · exact Nat.le_refl _
  · rw [if_neg hp, if_neg hp]

theorem removeAll_eq_self (old : List Char) :
    ∀ s : List Char, containsL old s = false → removeAll old s = s := by
  intro s
  induction s with
  | nil => intro _; rfl
  | cons c rest ih =>
    intro h
    simp only [containsL, Bool.or_eq_false_iff] at h
    rw [removeAll_cons, if_neg (by simp [h.1]), ih h.2]

theorem removeAll_append_of_ne_nil (old v : List Char) (h : old ≠ []) :
    removeAll old (old ++ v) = removeAll old v := by
  cases old with
  | nil => exact absurd rfl h
  | cons o os =>
    rw [List.cons_append, removeAll_cons,
      if_pos (by rw [← List.cons_append]; exact isPre_append_self (o :: os) v)]
    simp only [List.length_cons, Nat.add_sub_cancel]
    rw [List.drop_left os v]

/-! ### Lemmas about `pyStrip` -/

theorem head_dropWhile_false (p : Char → Bool) :
    ∀ (l : List Char) (c : Char), (l.dropWhile p).head? = some c → p c = false := by
  intro l
  induction l with
  | nil => intro c h; simp [List.dropWhile] at h
  | cons a as ih =>
    intro c h
    rw [List.dropWhile_cons] at h
    by_cases hp : p a = true
    · rw [if_pos hp] at h
      exact ih c h
    · rw [if_neg hp] at h
      simp only [List.head?_cons, Option.some.injEq] at h
      subst h
      exact Bool.eq_false_iff.mpr hp

theorem pyStrip_getLast_not_space (s : List Char) (c : Char)
    (h : (pyStrip s).getLast? = some c) : isSpaceC c = false := by
  unfold pyStrip at h
  rw [List.getLast?_reverse] at h
  exact head_dropWhile_false isSpaceC _ c h

theorem pyStrip_ne_ansLabel (s : List Char) : pyStrip s ≠ ansLabel := by
  intro h
  have hl : (pyStrip s).getLast? = some ' ' := by rw [h]; decide
  have := pyStrip_getLast_not_space s ' ' hl
  simp [isSpaceC] at this

theorem pyStrip_eq_nil_of_all_space (s : List Char)
    (h : ∀ c ∈ s, isSpaceC c = true) : pyStrip s = [] := by
  unfold pyStrip
  have h1 : s.dropWhile isSpaceC = [] := List.dropWhile_eq_nil_iff.mpr h
  rw [h1]
  rfl

theorem all_space_of_pyStrip_eq_nil (s : List Char) (h : pyStrip s = []) :
    ∀ c ∈ s, isSpaceC c = true := by
  unfold pyStrip at h
  rw [List.reverse_eq_nil_iff, List.dropWhile_eq_nil_iff] at h
  have h2 : ∀ c ∈ s.dropWhile isSpaceC, isSpaceC c = true := by
    intro c hc
    exact h c (List.mem_reverse.mpr hc)
  intro c hc
  rw [← List.takeWhile_append_dropWhile isSpaceC s] at hc
  rcases List.mem_append.mp hc with h3 | h3
  · exact List.mem_takeWhile_imp h3
  · exact h2 c h3

/-! ### Lemmas about the splitters -/

theorem two_nl_eq_false {c d : Char} (h : ¬(c = '\n' ∧ d = '\n')) :
    (decide (c = '\n') && decide (d = '\n')) = false := by
  by_cases h1 : c = '\n'
  · by_cases h2 : d = '\n'
    · exact absurd ⟨h1, h2⟩ h
    · simp [h2]
  · simp [h1]

theorem not_two_nl {c d : Char}
    (h : (decide (c = '\n') && decide (d = '\n')) = false) : ¬(c = '\n' ∧ d = '\n') := by
  rintro ⟨h1, h2⟩
  simp [h1, h2] at h

theorem splitNl_ne_nil (s : List Char) : splitNl s ≠ [] := by
  cases s with
  | nil => simp [splitNl]
  | cons c rest =>
    simp only [splitNl]
    split
    · simp
    · split <;> simp

theorem splitNlNl_ne_nil (s : List Char) : splitNlNl s ≠ [] := by
  match s with
  | [] => simp [splitNlNl]
  | [c] => simp [splitNlNl]
  | c :: d :: rest =>
    simp only [splitNlNl]
    split
    · simp
    · split <;> simp

theorem splitNlNl_head_shape (c : Char) (rest : List Char) :
    (splitNlNl (c :: rest)).head? = some [] ∨
      ∃ p, (splitNlNl (c :: rest)).head? = some (c :: p) := by
  match rest with
  | [] => right; exact ⟨[], rfl⟩
  | d :: rest' =>
    simp only [splitNlNl]
    split
    · left; rfl
    · split
      · next heq => exact absurd heq (splitNlNl_ne_nil _)
      · next p ps _ => right; exact ⟨p, rfl⟩

theorem hasNlNl_of_mem_aux :
    ∀ (n : Nat) (s : List Char), s.length ≤ n → ∀ b ∈ splitNlNl s, hasNlNl b = false := by
  intro n
  induction n with
  | zero =>
    intro s hs b hb
    have : s = [] := List.eq_nil_of_length_eq_zero (Nat.le_zero.mp hs)
    subst this
    simp only [splitNlNl, List.mem_singleton] at hb
    subst hb
    rfl
  | succ n ih =>
    intro s hs b hb
    match s with
    | [] =>
      simp only [splitNlNl, List.mem_singleton] at hb
      subst hb; rfl
    | [c] =>
      simp only [splitNlNl, List.mem_singleton] at hb
      subst hb; rfl
    | c :: d :: rest =>
      simp only [List.length_cons] at hs
      simp only [splitNlNl] at hb
      by_cases hcd : c = '\n' ∧ d = '\n'
      · rw [if_pos hcd] at hb
        rcases List.mem_cons.mp hb with h | h
        · subst h; rfl
        · exact ih rest (by omega) b h
      · rw [if_neg hcd] at hb
        rcases hsplit : splitNlNl (d :: rest) with _ | ⟨p, ps⟩
        · exact absurd hsplit (splitNlNl_ne_nil _)
        · rw [hsplit] at hb
          rcases List.mem_cons.mp hb with h | h
          · subst h
            have hp : hasNlNl p = false :=
              ih (d :: rest) (by simp; omega) p
                (by rw [hsplit]; exact List.mem_cons_self _ _)
            rcases splitNlNl_head_shape d rest with hh | ⟨p', hh⟩
            · rw [hsplit] at hh
              simp only [List.head?_cons, Option.some.injEq] at hh
              subst hh; rfl
            · rw [hsplit] at hh
              simp only [List.head?_cons, Option.some.injEq] at hh
              subst hh
              simp only [hasNlNl, Bool.or_eq_false_iff]
              exact ⟨two_nl_eq_false hcd, hp⟩
          · exact ih (d :: rest) (by simp; omega) b
              (by rw [hsplit]; exact List.mem_cons_of_mem _ h)

theorem hasNlNl_of_mem_splitNlNl (s b : List Char) (hb : b ∈ splitNlNl s) :
    hasNlNl b = false :=
  hasNlNl_of_mem_aux s.length s (Nat.le_refl _) b hb

theorem splitNlNl_eq_self : ∀ (s : List Char), hasNlNl s = false → splitNlNl s = [s] := by
  intro s
  induction s with
  | nil => intro _; rfl
  | cons c rest ih =>
    intro h
    cases rest with
    | nil => rfl
    | cons d rest' =>
      simp only [hasNlNl, Bool.or_eq_false_iff] at h
      simp only [splitNlNl]
      rw [if_neg (not_two_nl h.1), ih h.2]

theorem splitNlNl_cons_cons (c d : Char) (rest : List Char) :
    splitNlNl (c :: d :: rest) =
      if c = '\n' ∧ d = '\n' then [] :: splitNlNl rest
      else
        match splitNlNl (d :: rest) with
        | [] => [[c]]
        | p :: ps => (c :: p) :: ps := by
  simp only [splitNlNl]

theorem splitNlNl_sep (rest : List Char) :
    splitNlNl ('\n' :: '\n' :: rest) = [] :: splitNlNl rest := by
  rw [splitNlNl_cons_cons, if_pos ⟨rfl, rfl⟩]

theorem splitNlNl_append_sep :
    ∀ (b rest : List Char), hasNlNl b = false → b.getLast? ≠ some '\n' →
      splitNlNl (b ++ '\n' :: '\n' :: rest) = b :: splitNlNl rest := by
  intro b
  induction b with
  | nil =>
    intro rest _ _
    rw [List.nil_append, splitNlNl_sep]
  | cons c b' ih =>
    intro rest hno hlast
    cases b' with
    | nil =>
      have hc : c ≠ '\n' := by simpa using hlast
      rw [List.cons_append, List.nil_append, splitNlNl_cons_cons,
        if_neg (by rintro ⟨h1, _⟩; exact hc h1), splitNlNl_sep]
    | cons d b'' =>
      simp only [hasNlNl, Bool.or_eq_false_iff] at hno
      have hlast' : (d :: b'').getLast? ≠ some '\n' := by
        rwa [List.getLast?_cons_cons] at hlast
      have hrec : splitNlNl (d :: (b'' ++ '\n' :: '\n' :: rest)) =
          (d :: b'') :: splitNlNl rest := by
        have h := ih rest hno.2 hlast'
        rwa [List.cons_append] at h
      rw [List.cons_append, List.cons_append, splitNlNl_cons_cons,
        if_neg (not_two_nl hno.1), hrec]

theorem splitNlNl_joinBlocks :
    ∀ (bs : List (List Char)), bs ≠ [] →
      (∀ b ∈ bs, hasNlNl b = false) → (∀ b ∈ bs, b.getLast? ≠ some '\n') →
      splitNlNl (joinBlocks bs) = bs := by
  intro bs
  induction bs with
  | nil => intro h; exact absurd rfl h
  | cons b bs' ih =>
    intro _ h1 h2
    cases bs' with
    | nil => exact splitNlNl_eq_self b (h1 b (List.mem_cons_self _ _))
    | cons b2 bs'' =>
      simp only [joinBlocks]
      rw [splitNlNl_append_sep b _ (h1 b (List.mem_cons_self _ _))
        (h2 b (List.mem_cons_self _ _)),
        ih (by simp) (fun x hx => h1 x (List.mem_cons_of_mem _ hx))
          (fun x hx => h2 x (List.mem_cons_of_mem _ hx))]

theorem splitNl_mem_chars :
    ∀ (s l : List Char), l ∈ splitNl s → ∀ c ∈ l, c ∈ s := by
  intro s
  induction s with
  | nil =>
    intro l hl c hc
    simp only [splitNl, List.mem_singleton] at hl
    subst hl
    simp at hc
  | cons a rest ih =>
    intro l hl c hc
    simp only [splitNl] at hl
    by_cases ha : a = '\n'
    · rw [if_pos ha] at hl
      rcases List.mem_cons.mp hl with h | h
      · subst h; simp at hc
      · exact List.mem_cons_of_mem _ (ih l h c hc)
    · rw [if_neg ha] at hl
      rcases hsp : splitNl rest with _ | ⟨p, ps⟩
      · exact absurd hsp (splitNl_ne_nil _)
      · rw [hsp] at hl
        rcases List.mem_cons.mp hl with h | h
        · subst h
          rcases List.mem_cons.mp hc with h2 | h2
          · subst h2; exact List.mem_cons_self _ _
          · exact List.mem_cons_of_mem _
              (ih p (by rw [hsp]; exact List.mem_cons_self _ _) c h2)
        · exact List.mem_cons_of_mem _
            (ih l (by rw [hsp]; exact List.mem_cons_of_mem _ h) c hc)

theorem hasNlNl_of_splitNl (b : List Char) (p : List Char) (ps : List (List Char))
    (h : splitNl b = [] :: [] :: p :: ps) : hasNlNl b = true := by
  cases b with
  | nil => simp [splitNl] at h
  | cons c rest =>
    simp only [splitNl] at h
    by_cases hc : c = '\n'
    · rw [if_pos hc] at h
      have h2 : splitNl rest = [] :: p :: ps := by
        simpa using h
      cases rest with
      | nil => simp [splitNl] at h2
      | cons e rest' =>
        simp only [splitNl] at h2
        by_cases he : e = '\n'
        · subst hc; subst he; rfl
        · rw [if_neg he] at h2
          rcases hsp : splitNl rest' with _ | ⟨q, qs⟩
          · exact absurd hsp (splitNl_ne_nil _)
          · rw [hsp] at h2
            simp at h2
    · rw [if_neg hc] at h
      rcases hsp : splitNl rest with _ | ⟨q, qs⟩
      · exact absurd hsp (splitNl_ne_nil _)
      · rw [hsp] at h
        simp at h

/-! ### Shape lemmas for the per-block parsers -/

theorem parseLines_short_none (ls : List (List Char)) (h : ls.length < 3) :
    parseLinesApp ls = none ∧ parseLinesDeep ls = none := by
  match ls with
  | [] => exact ⟨rfl, rfl⟩
  | [_] => exact ⟨rfl, rfl⟩
  | [_, _] => exact ⟨rfl, rfl⟩
  | _ :: _ :: _ :: _ =>
    simp only [List.length_cons] at h
    omega

theorem parse_some_shape (b : List Char) (r : QuestionRecord)
    (h : parseBlockApp b = some r ∨ parseBlockDeep b = some r) :
    ∃ l0 l1 l2 rest, splitNl b = l0 :: l1 :: l2 :: rest ∧
      r.options = (padTo4 ((l1 :: l2 :: rest).dropLast)).map pyStrip ∧
      r.correct_answer = pyStrip (removeAll ansLabel (lastLine l2 rest)) := by
  have hl : parseLinesApp (splitNl b) = some r ∨ parseLinesDeep (splitNl b) = some r := by
    rcases h with h | h
    · unfold parseBlockApp at h
      split at h
      · exact absurd h (by simp)
      · exact Or.inl h
    · exact Or.inr h
  rcases hsp : splitNl b with _ | ⟨l0, rest1⟩
  · exact absurd hsp (splitNl_ne_nil b)
  rcases rest1 with _ | ⟨l1, rest2⟩
  · rw [hsp] at hl
    rcases hl with h | h <;> simp [parseLinesApp, parseLinesDeep] at h
  rcases rest2 with _ | ⟨l2, rest⟩
  · rw [hsp] at hl
    rcases hl with h | h <;> simp [parseLinesApp, parseLinesDeep] at h
  refine ⟨l0, l1, l2, rest, rfl, ?_⟩
  rw [hsp] at hl
  rcases hl with h | h
  · simp only [parseLinesApp, Option.some.injEq] at h
    subst h
    exact ⟨rfl, rfl⟩
  · simp only [parseLinesDeep, Option.some.injEq] at h
    subst h
    exact ⟨rfl, rfl⟩

/-! ### The claims -/

/-- Claim C1, counterexample: on the end-to-end scenario input of the spec,
the parser of `src/app.py` does not return the records the claim predicts;
the numeric enumeration marker stays in the prompt and the option-letter
prefixes stay in the options. -/
theorem c1_counterexample :
    formatQuizApp c1Input ≠
      [⟨"What color is the sky?".toList,
        ["Red".toList, "Blue".toList, "Green".toList, "Yellow".toList],
        "b) Blue".toList⟩,
       ⟨"What is the capital of France?".toList,
        ["Berlin".toList, "Madrid".toList, "Paris".toList, "Rome".toList],
        "c) Paris".toList⟩] := by decide

/-- Claim C1, amended: on the two-block scenario input both parsers return
exactly two records, but the prompts keep their `1:` / `2:` enumeration
markers and the options keep their `a)`-`d)` letter prefixes; the correct
answers are `"b) Blue"` and `"c) Paris"` as claimed. -/
theorem c1_scenario :
    formatQuizApp c1Input =
      [⟨"1: What color is the sky?".toList,
        ["a) Red".toList, "b) Blue".toList, "c) Green".toList, "d) Yellow".toList],
        "b) Blue".toList⟩,
       ⟨"2: What is the capital of France?".toList,
        ["a) Berlin".toList, "b) Madrid".toList, "c) Paris".toList, "d) Rome".toList],
        "c) Paris".toList⟩] ∧
    formatQuizDeep c1Input =
      [⟨"1: What color is the sky?".toList,
        ["a) Red".toList, "b) Blue".toList, "c) Green".toList, "d) Yellow".toList],
        "b) Blue".toList⟩,
       ⟨"2: What is the capital of France?".toList,
        ["a) Berlin".toList, "b) Madrid".toList, "c) Paris".toList, "d) Rome".toList],
        "c) Paris".toList⟩] := by decide

/-- Claim C2, counterexample: the stem line `"3: What is 2+2?"` does not
yield the prompt `"What is 2+2?"` in either implementation, contrary to the
claim; the bare numeric marker is not stripped by either one. -/
theorem c2_counterexample :
    ((formatQuizApp c2Block3).map fun r => r.question) = ["3: What is 2+2?".toList] ∧
    ((formatQuizDeep c2Block3).map fun r => r.question) = ["3: What is 2+2?".toList] ∧
    "3: What is 2+2?".toList ≠ "What is 2+2?".toList := by decide

/-- Claim C2, amended: `quiz_deep.py` strips a leading marker only when the
literal word `Question` is present (then optional whitespace, one or more
digits, and an optional colon), then trims, so `"Question 3: What is 2+2?"`
yields `"What is 2+2?"` while `"3: ..."` and `"- ..."` stems survive;
`app.py` only removes occurrences of `"- "` from the stem (without
trimming), so `"- What is 2+2?"` yields `"What is 2+2?"` there while
`"Question 3: ..."` and `"3: ..."` stems survive. -/
theorem c2_label_stripping :
    ((formatQuizDeep c2BlockQ).map fun r => r.question) = ["What is 2+2?".toList] ∧
    ((formatQuizApp c2BlockQ).map fun r => r.question) =
      ["Question 3: What is 2+2?".toList] ∧
    ((formatQuizDeep c2BlockDash).map fun r => r.question) = ["- What is 2+2?".toList] ∧
    ((formatQuizApp c2BlockDash).map fun r => r.question) = ["What is 2+2?".toList] ∧
    ((formatQuizDeep c2Block3).map fun r => r.question) = ["3: What is 2+2?".toList] ∧
    ((formatQuizApp c2Block3).map fun r => r.question) = ["3: What is 2+2?".toList] := by
  decide

/-- Claim C3, counterexample: the label `"Correct Answer: "` is removed
everywhere in the answer line, not only as a leading prefix; the last line
`"The Correct Answer: is b"` becomes `"The is b"` in both implementations,
while the claim predicts it stays unchanged. -/
theorem c3_counterexample :
    ((formatQuizApp c3Block).map fun r => r.correct_answer) = ["The is b".toList] ∧
    ((formatQuizDeep c3Block).map fun r => r.correct_answer) = ["The is b".toList] ∧
    "The is b".toList ≠ "The Correct Answer: is b".toList := by decide

/-- Claim C3, amended: both implementations remove every occurrence of the
literal `"Correct Answer: "` (case-sensitive, with colon and trailing
space) from the last line and then trim; in particular, when the last line
is the label followed by a value that does not itself contain the label,
the correct answer is exactly the trimmed value. -/
theorem c3_answer_label (l0 l1 v : List Char) (h : containsL ansLabel v = false) :
    ((parseLinesApp [l0, l1, ansLabel ++ v]).map fun r => r.correct_answer) =
      some (pyStrip v) ∧
    ((parseLinesDeep [l0, l1, ansLabel ++ v]).map fun r => r.correct_answer) =
      some (pyStrip v) := by
  have key : removeAll ansLabel (ansLabel ++ v) = v := by
    rw [removeAll_append_of_ne_nil _ _ (by decide), removeAll_eq_self _ _ h]
  exact ⟨by simp [parseLinesApp, lastLine, key], by simp [parseLinesDeep, lastLine, key]⟩

/-- Witness for the amended claim C3 at the spec's example answer line
`"Correct Answer: b) 4"`. -/
theorem c3_answer_label_witness :
    containsL ansLabel ("b) 4".toList) = false ∧
    ((parseLinesApp ["Q".toList, "a) 3".toList, ansLabel ++ "b) 4".toList]).map
      fun r => r.correct_answer) = some (pyStrip ("b) 4".toList)) :=
  ⟨by decide, (c3_answer_label "Q".toList "a) 3".toList "b) 4".toList (by decide)).1⟩

/-- Claim C4, counterexample: a block whose first line is empty can have
three lines but only two non-empty ones, and it still produces a record in
both implementations — the dropped-block test of the code counts all
lines, not the non-empty ones. -/
theorem c4_counterexample :
    splitNlNl c4Input = ["A".toList, "\nB\nC".toList] ∧
    (((splitNl "\nB\nC".toList).filter fun l => !l.isEmpty).length) = 2 ∧
    formatQuizApp c4Input = [⟨[], ["B".toList, [], [], []], "C".toList⟩] ∧
    parseBlockDeep "\nB\nC".toList ≠ none := by decide

/-- Claim C4, amended: every block that splits into fewer than three lines
(counting empty lines) produces no record in either implementation; in
particular a two-line block (stem plus answer line) is dropped silently,
and since each block is handled independently, parsing of the other blocks
continues. -/
theorem c4_drop_short (b : List Char) (h : (splitNl b).length < 3) :
    parseBlockApp b = none ∧ parseBlockDeep b = none := by
  have hl := parseLines_short_none (splitNl b) h
  refine ⟨?_, hl.2⟩
  unfold parseBlockApp
  split
  · rfl
  · exact hl.1

/-- Witness for the amended claim C4 at a concrete two-line block. -/
theorem c4_drop_short_witness :
    (splitNl "S\nCorrect Answer: x".toList).length < 3 ∧
    parseBlockApp "S\nCorrect Answer: x".toList = none ∧
    parseBlockDeep "S\nCorrect Answer: x".toList = none :=
  ⟨by decide, (c4_drop_short _ (by decide)).1, (c4_drop_short _ (by decide)).2⟩

/-- Claim C7, counterexample: when the answer line is the bare label
`"Correct Answer:"` without the trailing space, nothing is removed and the
record's correct answer IS the literal label text, contrary to the claim. -/
theorem c7_counterexample :
    ((formatQuizApp c7Input).map fun r => r.correct_answer) =
      ["Correct Answer:".toList] ∧
    ((formatQuizDeep c7Input).map fun r => r.correct_answer) =
      ["Correct Answer:".toList] := by decide

/-- Claim C7, amended: a record's correct answer is never the exact removal
target `"Correct Answer: "` (label with the trailing space), because the
field is always trimmed of surrounding whitespace; the space-less variant
`"Correct Answer:"` can, however, survive verbatim. -/
theorem c7_no_label (t : List Char) (r : QuestionRecord)
    (h : r ∈ formatQuizApp t ∨ r ∈ formatQuizDeep t) :
    r.correct_answer ≠ "Correct Answer: ".toList := by
  have hsh : ∃ x, r.correct_answer = pyStrip x := by
    rcases h with h | h
    · rcases List.mem_filterMap.mp h with ⟨b, _, hparse⟩
      rcases parse_some_shape b r (Or.inl hparse) with ⟨l0, l1, l2, rest, _, _, hans⟩
      exact ⟨_, hans⟩
    · rcases List.mem_filterMap.mp h with ⟨b, _, hparse⟩
      rcases parse_some_shape b r (Or.inr hparse) with ⟨l0, l1, l2, rest, _, _, hans⟩
      exact ⟨_, hans⟩
  rcases hsh with ⟨x, hx⟩
  rw [hx]
  exact pyStrip_ne_ansLabel x

/-- Witness for the amended claim C7 at a concrete parsed record. -/
theorem c7_no_label_witness :
    ((⟨"Q".toList, ["a".toList, [], [], []], "B".toList⟩ : QuestionRecord) ∈
      formatQuizApp "Q\na\nB".toList) ∧
    (⟨"Q".toList, ["a".toList, [], [], []], "B".toList⟩ : QuestionRecord).correct_answer ≠
      "Correct Answer: ".toList :=
  ⟨by decide, c7_no_label "Q\na\nB".toList _ (Or.inl (by decide))⟩

/-- Claim C5: every block that produces a record from at most four middle
lines yields an options list of length exactly four, consisting of the
trimmed middle lines followed by padding empty strings — nothing is ever
truncated. Holds for both implementations. -/
theorem c5_pad_to_four (b : List Char) (r : QuestionRecord)
    (h : parseBlockApp b = some r ∨ parseBlockDeep b = some r)
    (hn : (middleOf (splitNl b)).length ≤ 4) :
    r.options = ((middleOf (splitNl b)).map pyStrip) ++
      List.replicate (4 - (middleOf (splitNl b)).length) [] ∧
    r.options.length = 4 := by
  rcases parse_some_shape b r h with ⟨l0, l1, l2, rest, hsp, hopt, _⟩
  have hm : middleOf (splitNl b) = (l1 :: l2 :: rest).dropLast := by
    rw [hsp]; rfl
  rw [hm] at hn ⊢
  constructor
  · rw [hopt]
    simp only [padTo4, List.map_append, List.map_replicate]
    rfl
  · rw [hopt]
    simp only [padTo4, List.length_map, List.length_append, List.length_replicate]
    omega

/-- Witness for claim C5 at a block with two middle lines. -/
theorem c5_pad_to_four_witness :
    (middleOf (splitNl "Q\na\nb\nX".toList)).length ≤ 4 ∧
    (⟨"Q".toList, ["a".toList, "b".toList, [], []], "X".toList⟩ :
      QuestionRecord).options.length = 4 :=
  ⟨by decide,
    (c5_pad_to_four "Q\na\nb\nX".toList
      ⟨"Q".toList, ["a".toList, "b".toList, [], []], "X".toList⟩
      (Or.inl (by decide)) (by decide)).2⟩

/-- Claim C6: the parsers are total Lean functions (the embedding of code
that raises no exception on any input); the empty input yields the empty
record sequence in both implementations, and the number of records never
exceeds the number of blocks — malformed blocks only reduce the count,
they never abort the parse. -/
theorem c6_never_fails :
    formatQuizApp [] = [] ∧ formatQuizDeep [] = [] ∧
    ∀ t : List Char,
      (formatQuizApp t).length ≤ (splitNlNl t).length ∧
      (formatQuizDeep t).length ≤ (splitNlNl (pyStrip t)).length := by
  refine ⟨by decide, by decide, fun t => ⟨?_, ?_⟩⟩
  · exact List.length_filterMap_le _ _
  · exact List.length_filterMap_le _ _

/-- Claim C8: joining any non-empty list of blocks (none containing the
blank-line separator, none ending in a newline, and the whole text stable
under trimming) with blank lines and parsing it yields exactly the
per-block parses in block order — no reordering and no deduplication,
since `filterMap` keeps every successful parse at its position. -/
theorem c8_order (bs : List (List Char))
    (h1 : ∀ b ∈ bs, hasNlNl b = false)
    (h2 : ∀ b ∈ bs, b.getLast? ≠ some '\n')
    (h3 : bs ≠ [])
    (h4 : pyStrip (joinBlocks bs) = joinBlocks bs) :
    formatQuizApp (joinBlocks bs) = bs.filterMap parseBlockApp ∧
    formatQuizDeep (joinBlocks bs) = bs.filterMap parseBlockDeep := by
  have hsp := splitNlNl_joinBlocks bs h3 h1 h2
  constructor
  · show (splitNlNl (joinBlocks bs)).filterMap parseBlockApp = _
    rw [hsp]
  · show (splitNlNl (pyStrip (joinBlocks bs))).filterMap parseBlockDeep = _
    rw [h4, hsp]

/-- Witness for claim C8 at two identical blocks (also exhibiting that
duplicates are kept). -/
theorem c8_order_witness :
    (∀ b ∈ c8Blocks, hasNlNl b = false) ∧
    (∀ b ∈ c8Blocks, b.getLast? ≠ some '\n') ∧
    c8Blocks ≠ [] ∧
    pyStrip (joinBlocks c8Blocks) = joinBlocks c8Blocks ∧
    formatQuizApp (joinBlocks c8Blocks) = c8Blocks.filterMap parseBlockApp :=
  ⟨by decide, by decide, by decide, by decide,
    (c8_order c8Blocks (by decide) (by decide) (by decide) (by decide)).1⟩

/-- Claim C9, counterexample: an input with no `"- "` substring and no
enumeration marker on any block's first line on which the two
implementations nevertheless disagree — `app.py` keeps the leading space
of a stem while `quiz_deep.py` trims it. -/
theorem c9_counterexample :
    containsL dashSp c9Input = false ∧
    (∀ b ∈ splitNlNl c9Input,
      stripQuestionLabel (splitNl b).headI = (splitNl b).headI) ∧
    formatQuizApp c9Input ≠ formatQuizDeep c9Input := by decide

/-- Claim C9, amended: the two implementations agree on every input that
is stable under trimming, in which no line contains `"- "`, every line is
free of surrounding whitespace, and no block's first line matches the
`Question <digits>` label pattern. -/
theorem c9_equiv (t : List Char)
    (h0 : pyStrip t = t)
    (h1 : ∀ b ∈ splitNlNl t, ∀ l ∈ splitNl b,
      containsL dashSp l = false ∧ pyStrip l = l)
    (h2 : ∀ b ∈ splitNlNl t,
      stripQuestionLabel (splitNl b).headI = (splitNl b).headI) :
    formatQuizApp t = formatQuizDeep t := by
  unfold formatQuizApp formatQuizDeep
  rw [h0]
  apply List.filterMap_congr
  intro b hb
  have hlines := h1 b hb
  have hhead := h2 b hb
  by_cases hstrip : pyStrip b = []
  · unfold parseBlockApp
    rw [if_pos hstrip]
    unfold parseBlockDeep
    rcases hsp : splitNl b with _ | ⟨l0, rest1⟩
    · exact absurd hsp (splitNl_ne_nil b)
    rcases rest1 with _ | ⟨l1, rest2⟩
    · rfl
    rcases rest2 with _ | ⟨l2, rest⟩
    · rfl
    exfalso
    have hall := all_space_of_pyStrip_eq_nil b hstrip
    have hl0 : l0 = [] := by
      have hmem : l0 ∈ splitNl b := by rw [hsp]; exact List.mem_cons_self _ _
      have hsp0 : ∀ c ∈ l0, isSpaceC c = true := fun c hc =>
        hall c (splitNl_mem_chars b l0 hmem c hc)
      have hfix := (hlines l0 hmem).2
      rw [← hfix]
      exact pyStrip_eq_nil_of_all_space l0 hsp0
    have hl1 : l1 = [] := by
      have hmem : l1 ∈ splitNl b := by
        rw [hsp]; exact List.mem_cons_of_mem _ (List.mem_cons_self _ _)
      have hsp1 : ∀ c ∈ l1, isSpaceC c = true := fun c hc =>
        hall c (splitNl_mem_chars b l1 hmem c hc)
      have hfix := (hlines l1 hmem).2
      rw [← hfix]
      exact pyStrip_eq_nil_of_all_space l1 hsp1
    subst hl0
    subst hl1
    have hnl := hasNlNl_of_splitNl b l2 rest hsp
    rw [hasNlNl_of_mem_splitNlNl t b hb] at hnl
    exact Bool.false_ne_true hnl
  · unfold parseBlockApp
    rw [if_neg hstrip]
    unfold parseBlockDeep
    rcases hsp : splitNl b with _ | ⟨l0, rest1⟩
    · exact absurd hsp (splitNl_ne_nil b)
    rcases rest1 with _ | ⟨l1, rest2⟩
    · rfl
    rcases rest2 with _ | ⟨l2, rest⟩
    · rfl
    have hmem0 : l0 ∈ splitNl b := by rw [hsp]; exact List.mem_cons_self _ _
    have hq1 : removeAll dashSp l0 = l0 :=
      removeAll_eq_self dashSp l0 (hlines l0 hmem0).1
    have hq2 : stripQuestionLabel l0 = l0 := by
      rw [hsp] at hhead
      simpa using hhead
    have hq3 : pyStrip l0 = l0 := (hlines l0 hmem0).2
    simp [parseLinesApp, parseLinesDeep, hq1, hq2, hq3]

/-- Witness for the amended claim C9 at the two-block scenario input. -/
theorem c9_equiv_witness :
    pyStrip c1Input = c1Input ∧
    (∀ b ∈ splitNlNl c1Input, ∀ l ∈ splitNl b,
      containsL dashSp l = false ∧ pyStrip l = l) ∧
    (∀ b ∈ splitNlNl c1Input,
      stripQuestionLabel (splitNl b).headI = (splitNl b).headI) ∧
    formatQuizApp c1Input = formatQuizDeep c1Input :=
  ⟨by decide, by decide, by decide,
    c9_equiv c1Input (by decide) (by decide) (by decide)⟩

/-- Claim C10: for every block that produces a record (in either
implementation), the options list has length `max 4 n` where `n` is the
number of lines strictly between the block's first and last line: the
padding loop only appends, so the list is never shorter than four and
exceeds four exactly when the block has more than four middle lines. -/
theorem c10_options_max (b : List Char) (r : QuestionRecord)
    (h : parseBlockApp b = some r ∨ parseBlockDeep b = some r) :
    r.options.length = max 4 (middleOf (splitNl b)).length := by
  rcases parse_some_shape b r h with ⟨l0, l1, l2, rest, hsp, hopt, _⟩
  have hm : middleOf (splitNl b) = (l1 :: l2 :: rest).dropLast := by
    rw [hsp]; rfl
  rw [hm, hopt]
  simp only [padTo4, List.length_map, List.length_append, List.length_replicate]
  omega

/-- Witness for claim C10 at a block with six middle lines, where the
options list has length six. -/
theorem c10_options_max_witness :
    (⟨"Q".toList,
      ["1".toList, "2".toList, "3".toList, "4".toList, "5".toList, "6".toList],
      "A".toList⟩ : QuestionRecord).options.length =
      max 4 (middleOf (splitNl "Q\n1\n2\n3\n4\n5\n6\nA".toList)).length :=
  c10_options_max "Q\n1\n2\n3\n4\n5\n6\nA".toList _ (Or.inl (by decide))

end QuizBot
